import Mathlib

/-!
simple-http-get: request framing and connection processing.

A shallow embedding of `core/src/Http/Request.h` and of the connection
processor `workWithClient` in `core/src/Http/Server.cpp`.

* A `std::string` is a `List Byte`; a byte is written as a `Char`, so that
  the literals of the C++ source can be written as Lean string literals.
* `std::size_t` values are natural numbers, and every addition or
  subtraction the source performs on them is reduced modulo `2 ^ 64`.
  `i64` values are integers, wrapped by `toI64`.
* A C++ exception is an `Except Exn` error result.
* The filesystem is a map from paths to file contents.
* The socket is scripted: a list of `recv` results and a list of `send`
  outcomes; what the connection does is recorded as a list of `Event`s.
-/

namespace HttpGet

/-! ## Bytes and `std::string` primitives -/

/-- One byte of a `std::string` or of the receive buffer. -/
abbrev Byte := Char

/-- The zero byte. -/
def NUL : Byte := Char.ofNat 0

/-- The number of values of `std::size_t` (64-bit). -/
def SIZE_MOD : Nat := 2 ^ 64

/-- `std::string::npos`, the largest `std::size_t`. -/
def npos : Nat := 2 ^ 64 - 1

/-- C++ exceptions raised by the standard library calls the source makes. -/
inductive Exn where
  | out_of_range
  | invalid_argument
  deriving DecidableEq, Repr

deriving instance DecidableEq for Except

/-- Scan for the byte `c`; `i` is the index of the head of the list. -/
def findCharFrom (c : Byte) : List Byte → Nat → Nat
  | [], _ => npos
  | x :: xs, i => if x = c then i else findCharFrom c xs (i + 1)

/-- `std::string::find(char c, size_type pos)`: the least index `≥ pos`
holding `c`, or `npos`. -/
def findChar (s : List Byte) (c : Byte) (pos : Nat) : Nat :=
  findCharFrom c (s.drop pos) pos

/-- Does `s` start with `pat`? -/
def startsWith : List Byte → List Byte → Bool
  | [], _ => true
  | _ :: _, [] => false
  | p :: ps, x :: xs => p == x && startsWith ps xs

/-- Scan for the byte string `pat`; `i` is the index of the head of the list. -/
def findStrFrom (pat : List Byte) : List Byte → Nat → Nat
  | [], i => if startsWith pat [] then i else npos
  | x :: xs, i => if startsWith pat (x :: xs) then i else findStrFrom pat xs (i + 1)

/-- `std::string::find(const char* pat)` with the default `pos = 0`: the
index of the first occurrence of `pat`, or `npos`. -/
def find (s pat : List Byte) : Nat :=
  findStrFrom pat s 0

/-- `std::string::substr(pos, n)`: throws `std::out_of_range` when
`pos > size()`, else the bytes `[pos, min(pos + n, size()))`. -/
def substr (s : List Byte) (pos n : Nat) : Except Exn (List Byte) :=
  if pos > s.length then .error .out_of_range else .ok ((s.drop pos).take n)

/-- C `isspace` in the "C" locale. -/
def isspace (c : Byte) : Bool :=
  c.toNat = 32 || (9 ≤ c.toNat && c.toNat ≤ 13)

/-- C `isdigit`. -/
def isdigit (c : Byte) : Bool :=
  48 ≤ c.toNat && c.toNat ≤ 57

/-- The value of a string of decimal digits. -/
def digitsValue (ds : List Byte) : Nat :=
  ds.foldl (fun acc c => acc * 10 + (c.toNat - 48)) 0

/-- `std::stoull(str)` (base 10, via `strtoull`): skip leading white space,
accept one optional sign, read the longest run of decimal digits. No digit:
`std::invalid_argument`; a value that does not fit 64 bits:
`std::out_of_range`; a minus sign negates modulo `2 ^ 64`. -/
def stoull (s : List Byte) : Except Exn Nat :=
  let s1 := s.dropWhile isspace
  let signed : Bool × List Byte :=
    match s1 with
    | '-' :: t => (true, t)
    | '+' :: t => (false, t)
    | _ => (false, s1)
  let ds := signed.2.takeWhile isdigit
  if ds.isEmpty then .error .invalid_argument
  else
    let v := digitsValue ds
    if v ≥ SIZE_MOD then .error .out_of_range
    else .ok (if signed.1 then (SIZE_MOD - v) % SIZE_MOD else v)

/-! ## The filesystem -/

/-- A filesystem state: the content of the file at each path, if any. -/
abbrev FS := String → Option (List Byte)

/-- Create or overwrite the file at `path`. -/
def FS.write (fs : FS) (path : String) (content : List Byte) : FS :=
  fun p => if p = path then some content else fs p

/-- Modelled from the spec: `std::system("mv <src> <dst>")`, whose command
line is built by `utils::strFmt` (not part of the sources). It "relocates
the overflow file to `destinationPath` (the original overflow file no
longer exists at its old location afterward)". When `src` does not exist,
or `src` and `dst` are the same file, `mv` fails and nothing changes. -/
def FS.mv (fs : FS) (src dst : String) : FS :=
  match fs src with
  | none => fs
  | some content =>
    if src = dst then fs
    else fun p => if p = dst then some content else if p = src then none else fs p

/-- Modelled from the spec: `std::system("mkdir -p <folder>")` on
`utils::GetFolder(filename)` (neither is part of the sources). It "ensures
the destination's parent directory exists"; directories are not files, so
the map from paths to contents is unchanged. -/
def FS.mkdir_p (fs : FS) (_filename : String) : FS := fs

/-! ## `class Request` -/

/-- The fixed overflow file, `m_buffer_filename`. -/
def m_buffer_filename : String := "tmp"

/-- The state of a `Request`. `m_buffer` is the `std::fstream`: `none` while
it is not open, `some pending` while it is open, `pending` being the bytes
written to the stream that have not reached the file yet (they reach it at
`close`). -/
structure Request where
  m_data : List Byte
  m_buffer : Option (List Byte) := none
  m_file : Bool := false

/-- `m_buffer.close()`: flush the pending bytes to the overflow file. -/
def Request.closeBuffer (r : Request) (fs : FS) : Request × FS :=
  match r.m_buffer with
  | none => (r, fs)
  | some pending =>
    ({ r with m_buffer := none },
      fs.write m_buffer_filename ((fs m_buffer_filename).getD [] ++ pending))

/-- `Request::query()`. -/
def Request.query (r : Request) : Except Exn (List Byte) :=
  substr r.m_data 0
    (min r.m_data.length
      (findChar r.m_data ' ' ((findChar r.m_data ' ' 0 + 1) % SIZE_MOD)))

/-- `Request::append(l, r)`: the first call opens the overflow file with
`std::ios::out`, which creates it empty or truncates it; each call writes
the bytes `[l, r)` to the stream. A write to a stream that is not open
fails and writes nothing. -/
def Request.append (r : Request) (bytes : List Byte) (fs : FS) : Request × FS :=
  let opened : Request × FS :=
    if !r.m_file then
      ({ r with m_buffer := some [], m_file := true }, fs.write m_buffer_filename [])
    else (r, fs)
  match opened.1.m_buffer with
  | none => opened
  | some pending => ({ opened.1 with m_buffer := some (pending ++ bytes) }, opened.2)

/-- `Request::fin()`. -/
def Request.fin (r : Request) (fs : FS) : Request × FS :=
  if r.m_file then r.closeBuffer fs else (r, fs)

/-- `Request::~Request()`. -/
def Request.dtor (r : Request) (fs : FS) : FS :=
  if r.m_file then (r.closeBuffer fs).2 else fs

/-- The header/body delimiter `"\r\n\r\n"`. -/
def DELIM : List Byte := "\r\n\r\n".toList

/-- `Request::body()`. -/
def Request.body (r : Request) : Except Exn (List Byte) :=
  substr r.m_data
    ((min ((r.m_data.length + SIZE_MOD - 4) % SIZE_MOD) (find r.m_data DELIM) + 4) % SIZE_MOD)
    npos

/-- The header name searched by `payloadSize`. -/
def CONTENT_LENGTH : List Byte := "Content-Length: ".toList

/-- `Request::payloadSize()`. -/
def Request.payloadSize (r : Request) : Except Exn Nat :=
  match substr r.m_data ((find r.m_data CONTENT_LENGTH + 16) % SIZE_MOD) npos with
  | .error e => .error e
  | .ok s => stoull s

/-- `Request::copyTo(filename)`. -/
def Request.copyTo (r : Request) (filename : String) (fs : FS) : Except Exn (Bool × FS) :=
  if !r.m_file then
    match r.body with
    | .error e => .error e
    | .ok b => .ok (true, fs.write filename b)
  else
    let fs1 := fs.mkdir_p filename
    let fs2 := fs1.mv m_buffer_filename filename
    .ok (true, fs2)

/-- The literal searched by `needContinue`. -/
def EXPECT_CONTINUE : List Byte := "Expect: 100-continue".toList

/-- `Request::needContinue()`. -/
def Request.needContinue (r : Request) : Bool :=
  find r.m_data EXPECT_CONTINUE != npos

/-! ## The socket, the response and the event log -/

/-- The result of one `recv` call: a negative return value (`error`), or the
bytes it placed in the buffer (`data []` when it returned zero). A script of
results that is exhausted stands for a peer that has shut the connection
down: every further `recv` returns zero. -/
inductive RecvResult where
  | error
  | data (bytes : List Byte)
  deriving DecidableEq

/-- The capacity of the receive buffer, `size` in `workWithClient`. -/
def BUFFER_SIZE : Nat := 32 * 1024

/-- A `recv` into a buffer of `BUFFER_SIZE` bytes returns at most that many. -/
def RecvResult.wellFormed : RecvResult → Prop
  | .error => True
  | .data bytes => bytes.length ≤ BUFFER_SIZE

/-- `http_get::Response` as the connection processor sees it: the result of
`create()`, of `needContinue()` and of `readFrom()`. -/
structure Response where
  create : List Byte
  needContinue : Bool
  readFrom : String

/-- `Server::handler_t`: called with the request, it may act on the
filesystem (for instance through `Request::copyTo`). -/
abbrev handler_t := Request → FS → Response × FS

/-- What a connection does, in order. The four `send…` events carry the bytes
passed to `send` by `sendContinue`, `sendNotImplemented` and the two
overloads of `sendResponse`. -/
inductive Event where
  | payloadSize
  | sendContinue (bytes : List Byte)
  | sendNotImplemented (bytes : List Byte)
  | sendResponse (bytes : List Byte)
  | sendChunk (bytes : List Byte)
  | append (bytes : List Byte)
  | invoke (index : Nat)
  | threw (e : Exn)
  deriving DecidableEq

/-- The events of the continue-handshake. -/
def Event.isHandshake : Event → Bool
  | .payloadSize => true
  | .sendContinue _ => true
  | .append _ => true
  | _ => false

/-- The indices of the handlers invoked, in order. -/
def invoked : List Event → List Nat
  | [] => []
  | .invoke i :: es => i :: invoked es
  | _ :: es => invoked es

/-- The surroundings of one connection: the outcomes of the `send` calls
still to come (`true`: the call succeeds; an exhausted script: every further
call succeeds), the filesystem, and the events so far. -/
structure World where
  sends : List Bool
  fs : FS
  trace : List Event

/-- The world a connection starts in. -/
def World.init (sends : List Bool) (fs : FS) : World :=
  { sends := sends, fs := fs, trace := [] }

/-- One `send` call, recorded as `ev`; the result tells whether it succeeded
(returned a value `≥ 0`). -/
def World.send (w : World) (ev : Event) : Bool × World :=
  match w.sends with
  | [] => (true, { w with trace := w.trace ++ [ev] })
  | ok :: rest => (ok, { w with sends := rest, trace := w.trace ++ [ev] })

/-- `u8 data[size] = "literal"`: the characters of the literal, then zero
bytes up to `size` (the terminator among them). -/
def charArray (size : Nat) (literal : List Byte) : List Byte :=
  literal ++ List.replicate (size - literal.length) NUL

/-- The string literal in `sendContinue`. -/
def CONTINUE_LITERAL : List Byte :=
  "HTTP/1.1 100 Continue\r\nConnection: keep-alive\r\n\r\n".toList

/-- The string literal in `sendNotImplemented`. -/
def NOT_IMPLEMENTED_LITERAL : List Byte :=
  "HTTP/1.1 501 Not Implemented\r\n\r\n".toList

/-- The bytes `sendContinue` passes to `send`: `size = 50` bytes of `data`. -/
def continueBytes : List Byte :=
  (charArray 50 CONTINUE_LITERAL).take 50

/-- The bytes `sendNotImplemented` passes to `send`: `size = 33` bytes of `data`. -/
def notImplementedBytes : List Byte :=
  (charArray 33 NOT_IMPLEMENTED_LITERAL).take 33

/-- `sendContinue(client_desc)`. -/
def sendContinue (w : World) : Bool × World :=
  w.send (.sendContinue continueBytes)

/-- `sendNotImplemented(client_desc)`. -/
def sendNotImplemented (w : World) : Bool × World :=
  w.send (.sendNotImplemented notImplementedBytes)

/-- `sendResponse(client_desc, resp)`: sends `data.size()` bytes of
`resp.create()`. -/
def sendResponse (w : World) (resp : Response) : Bool × World :=
  w.send (.sendResponse resp.create)

/-- A `std::ifstream`: the bytes not read yet, and whether the stream is
still good. -/
structure IfStream where
  rest : List Byte
  good : Bool

/-- `std::ifstream read_from_stream(path)`: a missing file leaves the stream
in a failed state. -/
def IfStream.openAt (fs : FS) (path : String) : IfStream :=
  match fs path with
  | none => { rest := [], good := false }
  | some content => { rest := content, good := true }

/-- `read_from.read(data, size)`: the bytes extracted (`gcount()` is their
number) and the stream afterwards. A failed stream extracts nothing;
extracting fewer than `size` bytes sets `eofbit` and `failbit`. -/
def IfStream.read (s : IfStream) (size : Nat) : List Byte × IfStream :=
  if s.good then
    (s.rest.take size, { rest := s.rest.drop size, good := decide ((s.rest.take size).length = size) })
  else ([], s)

/-- `sendResponse(client_desc, data, size, read_from)`, the streaming
overload: zero the buffer, read into it, return `false` when nothing was
read, else send `size` bytes of the buffer. -/
def sendResponseFile (size : Nat) (read_from : IfStream) (w : World) : Bool × IfStream × World :=
  let filled : List Byte := List.replicate size NUL
  let r := read_from.read size
  let data : List Byte := r.1 ++ filled.drop r.1.length
  if r.1.length = 0 then (false, r.2, w)
  else
    let sent := w.send (.sendChunk (data.take size))
    (sent.1, r.2, sent.2)

/-- The loop `while (sendResponse(client_desc, buffer, size, read_from_stream));`. -/
def streamLoop (size : Nat) (read_from : IfStream) (w : World) : World :=
  if h : (sendResponseFile size read_from w).1 = true then
    streamLoop size (sendResponseFile size read_from w).2.1 (sendResponseFile size read_from w).2.2
  else (sendResponseFile size read_from w).2.2
termination_by read_from.rest.length
decreasing_by
  unfold sendResponseFile IfStream.read at *
  cases hg : read_from.good
  · simp [hg] at h
  · simp only [hg, if_true] at h ⊢
    by_cases h0 : (List.take size read_from.rest).length = 0
    · simp [h0] at h
    · simp only [h0, if_false, List.length_drop]
      simp only [List.length_take] at h0
      omega

/-! ## `workWithClient` -/

/-- An `i64` from an integer: wrap into `[-2^63, 2^63)`. -/
def toI64 (x : Int) : Int :=
  (x + 2 ^ 63) % 2 ^ 64 - 2 ^ 63

/-- The loop of lines 79-84:
`while (need_size > 0 && readRequest(...) && read_size)` with body
`need_size -= read_size; cur_req->append(buffer, buffer + read_size);`. -/
def continueLoop : List RecvResult → Int → Request → World → Request × World
  | recvs, need_size, cur_req, w =>
    if need_size > 0 then
      match recvs with
      | [] => (cur_req, w)
      | .error :: _ => (cur_req, w)
      | .data bytes :: rest =>
        if bytes.length = 0 then (cur_req, w)
        else
          let next := cur_req.append bytes w.fs
          continueLoop rest (toI64 (need_size - bytes.length)) next.1
            { w with fs := next.2, trace := w.trace ++ [.append bytes] }
    else (cur_req, w)

/-- Lines 76-85, from the request built of the first bytes received: `none`
when `workWithClient` has returned, or `payloadSize` has thrown, before
line 86; else the request as it reaches the handler lookup. -/
def handshake (cur_req : Request) (recvs : List RecvResult) (w : World) : Option Request × World :=
  if cur_req.needContinue then
    let w1 : World := { w with trace := w.trace ++ [.payloadSize] }
    match cur_req.payloadSize with
    | .error e => (none, { w1 with trace := w1.trace ++ [.threw e] })
    | .ok n =>
      let need_size := toI64 n
      let sent := sendContinue w1
      if !sent.1 then (none, sent.2)
      else
        let looped := continueLoop recvs need_size cur_req sent.2
        (some looped.1, looped.2)
  else (some cur_req, w)

/-- Lines 68-85: the first `readRequest`, the construction of the request
and the continue-handshake. -/
def receiveFrame (recvs : List RecvResult) (w : World) : Option Request × World :=
  match recvs with
  | .error :: _ => (none, w)
  | [] => handshake { m_data := [] } [] w
  | .data bytes :: rest => handshake { m_data := bytes } rest w

/-- `std::find_if` over the registry: the first entry satisfying `p`, with
its index (`i` is the index of the head of the list). -/
def find_if {α : Type} (p : α → Bool) : List α → Nat → Option (Nat × α)
  | [], _ => none
  | x :: xs, i => if p x then some (i, x) else find_if p xs (i + 1)

/-- Lines 86-104: the handler lookup with the comparator `utils::fmt::cmp`
(not part of the sources, so a parameter), the `501` response or the call of
the handler, the response and the streaming of its file. The request is
destroyed when the function returns. -/
def dispatch (cmp : List Byte → List Byte → Bool) (handlers : List (List Byte × handler_t))
    (cur_req : Request) (w : World) : World :=
  match cur_req.query with
  | .error e => { w with fs := cur_req.dtor w.fs, trace := w.trace ++ [.threw e] }
  | .ok query =>
    match find_if (fun pair => cmp pair.1 query) handlers 0 with
    | none =>
      let sent := sendNotImplemented w
      { sent.2 with fs := cur_req.dtor sent.2.fs }
    | some (i, pair) =>
      let finished := cur_req.fin w.fs
      let called := pair.2 finished.1 finished.2
      let response := called.1
      let w1 : World := { w with fs := called.2, trace := w.trace ++ [.invoke i] }
      let sent := sendResponse w1 response
      if !sent.1 || !response.needContinue then
        { sent.2 with fs := finished.1.dtor sent.2.fs }
      else
        let read_from_stream := IfStream.openAt sent.2.fs response.readFrom
        let w2 := streamLoop BUFFER_SIZE read_from_stream sent.2
        { w2 with fs := finished.1.dtor w2.fs }

/-- `workWithClient(handlers, client_desc)`. -/
def workWithClient (cmp : List Byte → List Byte → Bool) (handlers : List (List Byte × handler_t))
    (recvs : List RecvResult) (w : World) : World :=
  match receiveFrame recvs w with
  | (none, w1) => w1
  | (some cur_req, w1) => dispatch cmp handlers cur_req w1

/-- `ServerImpl::addHandler(pattern, handler)`: `m_data.push_back`. -/
def addHandler (m_data : List (List Byte × handler_t)) (pattern : List Byte) (handler : handler_t) :
    List (List Byte × handler_t) :=
  m_data ++ [(pattern, handler)]

/-- The total number of bytes of a list of chunks. -/
def totalLength (chunks : List (List Byte)) : Nat :=
  (chunks.map List.length).sum

/-- A comparator for the examples: the pattern equals the query. -/
def equalCmp : List Byte → List Byte → Bool :=
  fun pattern query => pattern == query

/-- A handler for the examples: it answers `body`, held in memory. -/
def fixedHandler (body : String) : handler_t :=
  fun _ fs => ({ create := body.toList, needContinue := false, readFrom := "" }, fs)

/-- The calls `append(c1); ...; append(cn)` in this order. -/
def appendAll (r : Request) (chunks : List (List Byte)) (fs : FS) : Request × FS :=
  chunks.foldl (fun state c => state.1.append c state.2) (r, fs)

/-- A handler for the examples: it answers a header and has the file at
`path` streamed after it. -/
def fileHandler (path : String) : handler_t :=
  fun _ fs => ({ create := "HTTP/1.1 200 OK\r\n\r\n".toList, needContinue := true,
                 readFrom := path }, fs)

/-- The number of zero bytes that fill a file of `n` bytes up to a whole
number of buffers of `size` bytes. -/
def padding (size n : Nat) : Nat :=
  (size - n % size) % size

/-- A filesystem without files. -/
def emptyFS : FS := fun _ => none

/-! ## Lemmas on the string primitives -/

theorem findCharFrom_spec (c : Byte) (s : List Byte) (i : Nat) :
    (c ∉ s ∧ findCharFrom c s i = npos) ∨
    (∃ pre post, s = pre ++ c :: post ∧ c ∉ pre ∧ findCharFrom c s i = i + pre.length) := by
  induction s generalizing i with
  | nil => left; simp [findCharFrom]
  | cons x xs ih =>
    by_cases hx : x = c
    · right
      refine ⟨[], xs, by simp [hx], by simp, by simp [findCharFrom, hx]⟩
    · rcases ih (i + 1) with ⟨hn, hr⟩ | ⟨pre, post, hs, hpre, hr⟩
      · left
        refine ⟨?_, by simp [findCharFrom, hx, hr]⟩
        simp only [List.mem_cons, not_or]
        exact ⟨fun h => hx h.symm, hn⟩
      · right
        refine ⟨x :: pre, post, by simp [hs], ?_, ?_⟩
        · simp only [List.mem_cons, not_or]
          exact ⟨fun h => hx h.symm, hpre⟩
        · simp only [findCharFrom, hx, if_false, hr, List.length_cons]
          omega

theorem startsWith_iff (pat s : List Byte) : startsWith pat s = true ↔ ∃ t, s = pat ++ t := by
  induction pat generalizing s with
  | nil => simp [startsWith]
  | cons p ps ih =>
    cases s with
    | nil => simp [startsWith]
    | cons x xs =>
      simp only [startsWith, Bool.and_eq_true, beq_iff_eq, ih, List.cons_append, List.cons.injEq]
      constructor
      · rintro ⟨rfl, t, rfl⟩
        exact ⟨t, rfl, rfl⟩
      · rintro ⟨t, rfl, rfl⟩
        exact ⟨rfl, t, rfl⟩

theorem findStrFrom_spec (pat s : List Byte) (i : Nat) :
    ((¬ ∃ pre post, s = pre ++ pat ++ post) ∧ findStrFrom pat s i = npos) ∨
    (∃ pre post, s = pre ++ pat ++ post ∧
      (∀ pre2 post2, s = pre2 ++ pat ++ post2 → pre.length ≤ pre2.length) ∧
      findStrFrom pat s i = i + pre.length) := by
  induction s generalizing i with
  | nil =>
    by_cases hp : startsWith pat [] = true
    · right
      obtain ⟨t, ht⟩ := (startsWith_iff pat []).1 hp
      refine ⟨[], t, by simpa using ht, fun _ _ _ => Nat.zero_le _, by simp [findStrFrom, hp]⟩
    · left
      refine ⟨?_, by simp [findStrFrom, hp]⟩
      rintro ⟨pre, post, h⟩
      apply hp
      rw [startsWith_iff]
      have h1 := congrArg List.length h
      simp only [List.length_nil, List.length_append] at h1
      have hpre : pre = [] := List.length_eq_zero.1 (by omega)
      subst hpre
      exact ⟨post, by simpa using h⟩
  | cons x xs ih =>
    by_cases hp : startsWith pat (x :: xs) = true
    · right
      obtain ⟨t, ht⟩ := (startsWith_iff pat (x :: xs)).1 hp
      refine ⟨[], t, by simpa using ht, fun _ _ _ => Nat.zero_le _, by simp [findStrFrom, hp]⟩
    · have hnot : ∀ post, x :: xs ≠ pat ++ post := by
        intro post h
        exact hp ((startsWith_iff pat (x :: xs)).2 ⟨post, h⟩)
      rcases ih (i + 1) with ⟨hn, hr⟩ | ⟨pre, post, hs, hmin, hr⟩
      · left
        refine ⟨?_, by simp [findStrFrom, hp, hr]⟩
        rintro ⟨pre, post, h⟩
        cases pre with
        | nil => exact hnot post (by simpa using h)
        | cons y ys =>
          simp only [List.cons_append, List.cons.injEq] at h
          exact hn ⟨ys, post, h.2⟩
      · right
        refine ⟨x :: pre, post, by simp [hs], ?_, ?_⟩
        · intro pre2 post2 h
          cases pre2 with
          | nil => exact absurd (by simpa using h) (hnot post2)
          | cons y ys =>
            simp only [List.cons_append, List.cons.injEq] at h
            have := hmin ys post2 h.2
            simp only [List.length_cons]
            omega
        · simp only [findStrFrom, hp, hr, List.length_cons]
          simp only [Bool.false_eq_true, if_false]
          omega


/-! ## `Request::query` -/

theorem count_eq_zero_of_not_mem (c : Byte) (s : List Byte) (h : c ∉ s) : s.count c = 0 :=
  List.count_eq_zero.2 h

/-- C2: for every request whose initial bytes fit a `std::string`,
`query()` returns all the bytes when they hold fewer than two spaces, and
otherwise the prefix that ends just before the second space: a prefix `q`
holding exactly one space and followed in the bytes by a space. -/
theorem query_prefix_before_second_space (r : Request) (h : r.m_data.length < 2 ^ 64) :
    (r.m_data.count ' ' < 2 → r.query = .ok r.m_data) ∧
    (2 ≤ r.m_data.count ' ' →
      ∃ q rest, r.query = .ok q ∧ r.m_data = q ++ ' ' :: rest ∧ q.count ' ' = 1) := by
  have key : (r.m_data.count ' ' < 2 ∧ r.query = .ok r.m_data) ∨
      (2 ≤ r.m_data.count ' ' ∧
        ∃ q rest, r.query = .ok q ∧ r.m_data = q ++ ' ' :: rest ∧ q.count ' ' = 1) := by
    unfold Request.query findChar substr
    simp only [List.drop_zero, Nat.not_lt_zero, gt_iff_lt, if_false]
    rcases findCharFrom_spec ' ' r.m_data 0 with ⟨hn, hr⟩ | ⟨pre, post, hs, hpre, hr⟩
    · left
      have hz : (npos + 1) % SIZE_MOD = 0 := by decide
      rw [hr, hz]
      simp only [List.drop_zero, hr]
      refine ⟨by rw [count_eq_zero_of_not_mem _ _ hn]; omega, ?_⟩
      have : min r.m_data.length npos = r.m_data.length := by
        unfold npos; omega
      rw [this, List.take_length]
    · have hlen : pre.length + 1 ≤ r.m_data.length := by
        rw [hs]; simp
      have hpos : (0 + pre.length + 1) % SIZE_MOD = pre.length + 1 := by
        unfold SIZE_MOD; omega
      rw [hr, hpos]
      have hdrop : List.drop (pre.length + 1) r.m_data = post := by
        rw [hs]; simp
      rw [hdrop]
      rcases findCharFrom_spec ' ' post (pre.length + 1) with
        ⟨hn2, hr2⟩ | ⟨pre2, post2, hs2, hpre2, hr2⟩
      · left
        rw [hr2]
        have : min r.m_data.length npos = r.m_data.length := by
          unfold npos; omega
        rw [this, List.take_length]
        refine ⟨?_, rfl⟩
        rw [hs, List.count_append, List.count_cons_self, count_eq_zero_of_not_mem _ _ hpre,
          count_eq_zero_of_not_mem _ _ hn2]
        omega
      · right
        rw [hr2]
        have hlen2 : pre.length + 1 + pre2.length ≤ r.m_data.length := by
          rw [hs, hs2]; simp; omega
        rw [Nat.min_eq_right hlen2]
        refine ⟨?_, pre ++ ' ' :: pre2, post2, ?_, ?_, ?_⟩
        · rw [hs, hs2]
          simp only [List.count_append, List.count_cons_self]
          omega
        · congr 1
          rw [hs, hs2]
          have e : pre ++ ' ' :: (pre2 ++ ' ' :: post2) = (pre ++ ' ' :: pre2) ++ (' ' :: post2) := by
            simp
          rw [e]
          apply List.take_left'
          simp
          omega
        · rw [hs, hs2]; simp
        · rw [List.count_append, List.count_cons_self, count_eq_zero_of_not_mem _ _ hpre,
            count_eq_zero_of_not_mem _ _ hpre2]
  constructor
  · intro hlt
    rcases key with ⟨_, hq⟩ | ⟨hge, _⟩
    · exact hq
    · omega
  · intro hge
    rcases key with ⟨hlt, _⟩ | ⟨_, hq⟩
    · omega
    · exact hq

/-- The example of the specification, `"GET /index HTTP/1.1\r\nHost: x\r\n\r\n"`:
its bytes hold two spaces, and `query()` is `"GET /index"`. -/
theorem query_prefix_before_second_space_witness :
    Request.query { m_data := "GET /index HTTP/1.1\r\nHost: x\r\n\r\n".toList } = .ok "GET /index".toList ∧
    ∃ q rest, Request.query { m_data := "GET /index HTTP/1.1\r\nHost: x\r\n\r\n".toList } = .ok q ∧
      "GET /index HTTP/1.1\r\nHost: x\r\n\r\n".toList = q ++ ' ' :: rest ∧ q.count ' ' = 1 :=
  ⟨by decide,
   (query_prefix_before_second_space { m_data := "GET /index HTTP/1.1\r\nHost: x\r\n\r\n".toList }
      (by decide)).2 (by decide)⟩

/-! ## `Request::body` -/

/-- The start offset `body()` passes to `substr`. -/
theorem body_eq_substr (r : Request) :
    r.body = substr r.m_data
      ((min ((r.m_data.length + SIZE_MOD - 4) % SIZE_MOD) (find r.m_data DELIM) + 4) % SIZE_MOD)
      npos := rfl

theorem DELIM_length : DELIM.length = 4 := by decide

theorem body_cases (d : List Byte) (h : d.length < 2 ^ 64) :
    ((¬ ∃ pre post, d = pre ++ DELIM ++ post) ∧
      (min ((d.length + SIZE_MOD - 4) % SIZE_MOD) (find d DELIM) + 4) % SIZE_MOD = d.length) ∨
    (∃ pre post, d = pre ++ DELIM ++ post ∧
      (∀ pre2 post2, d = pre2 ++ DELIM ++ post2 → pre.length ≤ pre2.length) ∧
      (min ((d.length + SIZE_MOD - 4) % SIZE_MOD) (find d DELIM) + 4) % SIZE_MOD
        = pre.length + 4) := by
  unfold find
  rcases findStrFrom_spec DELIM d 0 with ⟨hn, hr⟩ | ⟨pre, post, hs, hmin, hr⟩
  · left
    refine ⟨hn, ?_⟩
    rw [hr]
    unfold SIZE_MOD npos
    omega
  · right
    refine ⟨pre, post, hs, hmin, ?_⟩
    rw [hr]
    have hl : d.length = pre.length + 4 + post.length := by
      rw [hs]; simp only [List.length_append, DELIM_length]
    unfold SIZE_MOD
    omega

/-- C3: for every request whose initial bytes fit a `std::string`, the start
offset `body()` computes (with 64-bit wraparound) is at most the size, so
`substr` does not throw; `body()` is the bytes after the first occurrence of
`"\r\n\r\n"` when there is one, and empty when there is none, which covers
every input shorter than 4 bytes. -/
theorem body_in_range_and_after_delimiter (r : Request) (h : r.m_data.length < 2 ^ 64) :
    (min ((r.m_data.length + SIZE_MOD - 4) % SIZE_MOD) (find r.m_data DELIM) + 4) % SIZE_MOD
        ≤ r.m_data.length ∧
    (∃ b, r.body = .ok b) ∧
    (∀ pre post, r.m_data = pre ++ DELIM ++ post →
      (∀ pre2 post2, r.m_data = pre2 ++ DELIM ++ post2 → pre.length ≤ pre2.length) →
      r.body = .ok post) ∧
    ((¬ ∃ pre post, r.m_data = pre ++ DELIM ++ post) → r.body = .ok []) ∧
    (r.m_data.length < 4 → r.body = .ok []) := by
  have hnone : (¬ ∃ pre post, r.m_data = pre ++ DELIM ++ post) → r.body = .ok [] := by
    intro hn
    rcases body_cases r.m_data h with ⟨_, ho⟩ | ⟨pre, post, hs, _, _⟩
    · rw [body_eq_substr, ho]
      simp [substr]
    · exact absurd ⟨pre, post, hs⟩ hn
  have hsome : ∀ pre post, r.m_data = pre ++ DELIM ++ post →
      (∀ pre2 post2, r.m_data = pre2 ++ DELIM ++ post2 → pre.length ≤ pre2.length) →
      r.body = .ok post := by
    intro pre post hs hmin
    rcases body_cases r.m_data h with ⟨hn, _⟩ | ⟨pre1, post1, hs1, hmin1, ho⟩
    · exact absurd ⟨pre, post, hs⟩ hn
    · have hlen : pre1.length = pre.length :=
        Nat.le_antisymm (hmin1 pre post hs) (hmin pre1 post1 hs1)
      have hl : r.m_data.length = pre.length + 4 + post.length := by
        rw [hs]; simp only [List.length_append, DELIM_length]
      have hdrop : List.drop (pre.length + 4) r.m_data = post := by
        have e : pre.length + 4 = (pre ++ DELIM).length := by simp [DELIM_length]
        rw [hs, e, List.drop_left]
      rw [body_eq_substr, ho, hlen]
      unfold substr
      rw [if_neg (by omega), hdrop, List.take_of_length_le (by unfold npos; omega)]
  refine ⟨?_, ?_, hsome, hnone, ?_⟩
  · rcases body_cases r.m_data h with ⟨_, ho⟩ | ⟨pre, post, hs, _, ho⟩
    · omega
    · have hl : r.m_data.length = pre.length + 4 + post.length := by
        rw [hs]; simp only [List.length_append, DELIM_length]
      omega
  · rcases body_cases r.m_data h with ⟨hn, _⟩ | ⟨pre, post, hs, hmin, _⟩
    · exact ⟨[], hnone hn⟩
    · exact ⟨post, hsome pre post hs hmin⟩
  · intro hshort
    apply hnone
    rintro ⟨pre, post, hs⟩
    have hl : r.m_data.length = pre.length + 4 + post.length := by
      rw [hs]; simp only [List.length_append, DELIM_length]
    omega

/-- The example of the specification: `body("GET / HTTP/1.1\r\n\r\nHELLO")`
is `"HELLO"`, and the five properties hold of that request. -/
theorem body_in_range_and_after_delimiter_witness :
    Request.body { m_data := "GET / HTTP/1.1\r\n\r\nHELLO".toList } = .ok "HELLO".toList ∧
    Request.body { m_data := "\r\n\r".toList } = .ok [] ∧
    ((min (("GET / HTTP/1.1\r\n\r\nHELLO".toList.length + SIZE_MOD - 4) % SIZE_MOD)
        (find "GET / HTTP/1.1\r\n\r\nHELLO".toList DELIM) + 4) % SIZE_MOD
      ≤ "GET / HTTP/1.1\r\n\r\nHELLO".toList.length) :=
  ⟨by decide, by decide,
   (body_in_range_and_after_delimiter { m_data := "GET / HTTP/1.1\r\n\r\nHELLO".toList }
      (by decide)).1⟩

/-! ## The continue-handshake loop -/

theorem toI64_of_range (x : Int) (h1 : -2 ^ 63 ≤ x) (h2 : x < 2 ^ 63) : toI64 x = x := by
  unfold toI64
  omega

theorem totalLength_nil : totalLength [] = 0 := rfl

theorem totalLength_cons (c : List Byte) (cs : List (List Byte)) :
    totalLength (c :: cs) = c.length + totalLength cs := by
  simp [totalLength]

theorem length_le_totalLength (chunks : List (List Byte)) (h : ∀ c ∈ chunks, c ≠ []) :
    chunks.length ≤ totalLength chunks := by
  induction chunks with
  | nil => simp [totalLength]
  | cons c cs ih =>
    have hc : c ≠ [] := h c (List.mem_cons_self _ _)
    have hpos : 0 < c.length := List.length_pos.2 hc
    have := ih (fun x hx => h x (List.mem_cons_of_mem _ hx))
    rw [totalLength_cons, List.length_cons]
    omega

/-- The loop appends the longest prefix of the receive results made of
non-empty chunks, each arriving while the counter is still positive. The
counter is any `i64`. -/
theorem continueLoop_chunks (recvs : List RecvResult) (hwf : ∀ r ∈ recvs, r.wellFormed)
    (need_size : Int) (hneed : need_size < 2 ^ 63) (cur_req : Request) (w : World) :
    ∃ chunks rest, recvs = chunks.map RecvResult.data ++ rest ∧
      (continueLoop recvs need_size cur_req w).2.trace = w.trace ++ chunks.map Event.append ∧
      (continueLoop recvs need_size cur_req w).2.sends = w.sends ∧
      (∀ pre c post, chunks = pre ++ c :: post → c ≠ [] ∧ (totalLength pre : Int) < need_size) ∧
      (∀ r rest2, rest = r :: rest2 →
        r = .error ∨ r = .data [] ∨ need_size ≤ (totalLength chunks : Int)) := by
  induction recvs generalizing need_size cur_req w with
  | nil =>
    refine ⟨[], [], rfl, ?_, ?_, ?_, ?_⟩
    · unfold continueLoop; split <;> simp
    · unfold continueLoop; split <;> simp
    · intro pre c post h; simp at h
    · intro r rest2 h; simp at h
  | cons r rs ih =>
    by_cases hpos : need_size > 0
    · cases r with
      | error =>
        refine ⟨[], .error :: rs, rfl, ?_, ?_, ?_, ?_⟩
        · unfold continueLoop; simp [hpos]
        · unfold continueLoop; simp [hpos]
        · intro pre c post h; simp at h
        · intro r rest2 h
          simp only [List.cons.injEq] at h
          exact Or.inl h.1.symm
      | data bytes =>
        by_cases hb : bytes.length = 0
        · have hnil : bytes = [] := List.length_eq_zero.1 hb
          refine ⟨[], .data bytes :: rs, rfl, ?_, ?_, ?_, ?_⟩
          · unfold continueLoop; simp [hpos, hb]
          · unfold continueLoop; simp [hpos, hb]
          · intro pre c post h; simp at h
          · intro r rest2 h
            simp only [List.cons.injEq] at h
            exact Or.inr (Or.inl (by rw [← h.1, hnil]))
        · have hlen : bytes.length ≤ BUFFER_SIZE := hwf (.data bytes) (List.mem_cons_self _ _)
          have hB : BUFFER_SIZE = 32768 := by decide
          have hwrap : toI64 (need_size - bytes.length) = need_size - bytes.length :=
            toI64_of_range _ (by omega) (by omega)
          obtain ⟨chunks, rest, hsplit, htrace, hsends, hpre, hstop⟩ :=
            ih (fun x hx => hwf x (List.mem_cons_of_mem _ hx)) (need_size - bytes.length)
              (by omega) (cur_req.append bytes w.fs).1
              { w with fs := (cur_req.append bytes w.fs).2, trace := w.trace ++ [.append bytes] }
          refine ⟨bytes :: chunks, rest, by simp [hsplit], ?_, ?_, ?_, ?_⟩
          · unfold continueLoop
            simp only [hpos, if_true, hb, if_false, hwrap]
            rw [htrace]
            simp
          · unfold continueLoop
            simp only [hpos, if_true, hb, if_false, hwrap]
            rw [hsends]
          · intro pre c post h
            cases pre with
            | nil =>
              simp only [List.nil_append, List.cons.injEq] at h
              refine ⟨?_, by simpa [totalLength] using hpos⟩
              rw [← h.1]
              exact fun e => hb (by rw [e]; rfl)
            | cons p ps =>
              simp only [List.cons_append, List.cons.injEq] at h
              obtain ⟨hc, hs⟩ := hpre ps c post h.2
              refine ⟨hc, ?_⟩
              rw [totalLength_cons, ← h.1]
              push_cast
              omega
          · intro r rest2 h
            rcases hstop r rest2 h with h1 | h1 | h1
            · exact Or.inl h1
            · exact Or.inr (Or.inl h1)
            · refine Or.inr (Or.inr ?_)
              rw [totalLength_cons]
              push_cast
              omega
    · refine ⟨[], r :: rs, rfl, ?_, ?_, ?_, ?_⟩
      · unfold continueLoop; simp [hpos]
      · unfold continueLoop; simp [hpos]
      · intro pre c post h; simp at h
      · intro r rest2 _
        refine Or.inr (Or.inr ?_)
        simp only [totalLength_nil, Nat.cast_zero]
        omega

/-- C10: in the continue-handshake loop, for a payload size `0 < n < 2^63`
and receive results that each fit the buffer, the chunks appended are, in
arrival order, the longest prefix `r1..rk` of the receive results in which
every `ri` is a non-empty chunk received after fewer than `n` bytes: the
results split as these chunks followed by `rest`, and `rest` is empty or
starts with an error, with zero bytes, or when `n` bytes or more have
arrived. At most `n` chunks are appended. -/
theorem continueLoop_appends_longest_prefix (n : Nat) (hn0 : 0 < n) (hn : n < 2 ^ 63)
    (recvs : List RecvResult) (hwf : ∀ r ∈ recvs, r.wellFormed) (cur_req : Request) (w : World) :
    ∃ chunks rest, recvs = chunks.map RecvResult.data ++ rest ∧
      (continueLoop recvs (toI64 n) cur_req w).2.trace = w.trace ++ chunks.map Event.append ∧
      (∀ pre c post, chunks = pre ++ c :: post → c ≠ [] ∧ totalLength pre < n) ∧
      (∀ r rest2, rest = r :: rest2 → r = .error ∨ r = .data [] ∨ n ≤ totalLength chunks) ∧
      chunks.length ≤ n := by
  have hI : toI64 (n : Int) = n := toI64_of_range _ (by omega) (by omega)
  obtain ⟨chunks, rest, hsplit, htrace, _, hpre, hstop⟩ :=
    continueLoop_chunks recvs hwf (n : Int) (by omega) cur_req w
  have hpre2 : ∀ pre c post, chunks = pre ++ c :: post → c ≠ [] ∧ totalLength pre < n := by
    intro pre c post h
    obtain ⟨hc, hs⟩ := hpre pre c post h
    exact ⟨hc, by exact_mod_cast hs⟩
  refine ⟨chunks, rest, hsplit, by rw [hI]; exact htrace, hpre2, ?_, ?_⟩
  · intro r rest2 h
    rcases hstop r rest2 h with h1 | h1 | h1
    · exact Or.inl h1
    · exact Or.inr (Or.inl h1)
    · exact Or.inr (Or.inr (by exact_mod_cast h1))
  · rcases List.eq_nil_or_concat chunks with hnil | ⟨pre, c, hcat⟩
    · rw [hnil]; simp
    · have hcat2 : chunks = pre ++ c :: [] := by simpa using hcat
      obtain ⟨_, hs⟩ := hpre2 pre c [] hcat2
      have hne : ∀ x ∈ pre, x ≠ [] := by
        intro x hx
        obtain ⟨a, b, hab⟩ := List.append_of_mem hx
        exact (hpre2 a x (b ++ [c]) (by rw [hcat2, hab]; simp)).1
      have := length_le_totalLength pre hne
      rw [hcat2, List.length_append, List.length_singleton]
      omega

/-- Five bytes are expected, chunks of 3, 4 and 1 bytes arrive: the loop
appends a prefix of them as the theorem describes. -/
theorem continueLoop_appends_longest_prefix_witness :
    ∃ chunks rest,
      [RecvResult.data "abc".toList, .data "defg".toList, .data "h".toList]
        = chunks.map RecvResult.data ++ rest ∧
      (continueLoop [RecvResult.data "abc".toList, .data "defg".toList, .data "h".toList]
          (toI64 (5 : Nat)) { m_data := [] } (World.init [] emptyFS)).2.trace
        = (World.init [] emptyFS).trace ++ chunks.map Event.append ∧
      (∀ pre c post, chunks = pre ++ c :: post → c ≠ [] ∧ totalLength pre < 5) ∧
      (∀ r rest2, rest = r :: rest2 → r = .error ∨ r = .data [] ∨ 5 ≤ totalLength chunks) ∧
      chunks.length ≤ 5 :=
  continueLoop_appends_longest_prefix 5 (by decide) (by decide)
    [RecvResult.data "abc".toList, .data "defg".toList, .data "h".toList]
    (by
      intro r hr
      simp only [List.mem_cons, List.mem_singleton, List.not_mem_nil, or_false] at hr
      rcases hr with rfl | rfl | rfl <;> simp [RecvResult.wellFormed, BUFFER_SIZE])
    { m_data := [] } (World.init [] emptyFS)

/-! ## The event log of each step -/

theorem invoked_append (a b : List Event) : invoked (a ++ b) = invoked a ++ invoked b := by
  induction a with
  | nil => rfl
  | cons e es ih => cases e <;> simp [invoked, ih]

theorem invoked_map_append (chunks : List (List Byte)) : invoked (chunks.map Event.append) = [] := by
  induction chunks with
  | nil => rfl
  | cons c cs ih => simpa [invoked] using ih

theorem invoked_map_sendChunk (cs : List (List Byte)) : invoked (cs.map Event.sendChunk) = [] := by
  induction cs with
  | nil => rfl
  | cons c cs ih => simpa [invoked] using ih

theorem send_trace (w : World) (ev : Event) : (w.send ev).2.trace = w.trace ++ [ev] := by
  unfold World.send
  split <;> rfl

theorem send_fs (w : World) (ev : Event) : (w.send ev).2.fs = w.fs := by
  unfold World.send
  split <;> rfl

theorem continueLoop_trace (recvs : List RecvResult) (need_size : Int) (cur_req : Request)
    (w : World) :
    ∃ chunks : List (List Byte), (continueLoop recvs need_size cur_req w).2.trace
      = w.trace ++ chunks.map Event.append := by
  induction recvs generalizing need_size cur_req w with
  | nil => exact ⟨[], by unfold continueLoop; split <;> simp⟩
  | cons r rs ih =>
    by_cases hpos : need_size > 0
    · cases r with
      | error => exact ⟨[], by unfold continueLoop; simp [hpos]⟩
      | data bytes =>
        by_cases hb : bytes.length = 0
        · exact ⟨[], by unfold continueLoop; simp [hpos, hb]⟩
        · obtain ⟨chunks, h⟩ := ih (toI64 (need_size - bytes.length))
            (cur_req.append bytes w.fs).1
            { w with fs := (cur_req.append bytes w.fs).2, trace := w.trace ++ [.append bytes] }
          refine ⟨bytes :: chunks, ?_⟩
          unfold continueLoop
          simp only [hpos, if_true, hb, if_false]
          rw [h]
          simp
    · exact ⟨[], by unfold continueLoop; simp [hpos]⟩

theorem sendResponseFile_trace (size : Nat) (s : IfStream) (w : World) :
    ((sendResponseFile size s w).1 = false ∧ (sendResponseFile size s w).2.2.trace = w.trace) ∨
    ∃ b, (sendResponseFile size s w).2.2.trace = w.trace ++ [.sendChunk b] := by
  unfold sendResponseFile
  by_cases h0 : (s.read size).1.length = 0
  · left; simp [h0]
  · right
    simp only [h0, if_false, send_trace]
    exact ⟨_, rfl⟩

theorem sendResponseFile_decreases (size : Nat) (read_from : IfStream) (w : World)
    (h : (sendResponseFile size read_from w).1 = true) :
    (sendResponseFile size read_from w).2.1.rest.length < read_from.rest.length := by
  unfold sendResponseFile IfStream.read at *
  cases hg : read_from.good
  · simp [hg] at h
  · simp only [hg, if_true] at h ⊢
    by_cases h0 : (List.take size read_from.rest).length = 0
    · simp [h0] at h
    · simp only [h0, if_false, List.length_drop]
      simp only [List.length_take] at h0
      omega

theorem streamLoop_trace (size : Nat) (s : IfStream) (w : World) :
    ∃ cs : List (List Byte), (streamLoop size s w).trace = w.trace ++ cs.map Event.sendChunk := by
  generalize hn : s.rest.length = n
  induction n using Nat.strong_induction_on generalizing s w with
  | _ n ih =>
    rw [streamLoop]
    by_cases h : (sendResponseFile size s w).1 = true
    · rw [dif_pos h]
      have hdec := sendResponseFile_decreases size s w h
      obtain ⟨cs, hcs⟩ := ih _ (by rw [← hn]; exact hdec) (sendResponseFile size s w).2.1
        (sendResponseFile size s w).2.2 rfl
      rcases sendResponseFile_trace size s w with ⟨hf, _⟩ | ⟨b, hb⟩
      · rw [hf] at h; exact absurd h (by decide)
      · exact ⟨b :: cs, by rw [hcs, hb]; simp⟩
    · rw [dif_neg h]
      rcases sendResponseFile_trace size s w with ⟨_, ht⟩ | ⟨b, hb⟩
      · exact ⟨[], by rw [ht]; simp⟩
      · exact ⟨[b], by rw [hb]; simp⟩

theorem query_ok (r : Request) : ∃ q, r.query = .ok q := by
  unfold Request.query substr
  simp

theorem find_if_none {α : Type} (p : α → Bool) (l : List α) (k : Nat)
    (h : ∀ x ∈ l, p x = false) : find_if p l k = none := by
  induction l generalizing k with
  | nil => rfl
  | cons x xs ih =>
    have hx : p x = false := h x (List.mem_cons_self _ _)
    simp only [find_if, hx, Bool.false_eq_true, if_false]
    exact ih (k + 1) (fun y hy => h y (List.mem_cons_of_mem _ hy))

theorem find_if_first {α : Type} (p : α → Bool) (pre : List α) (e : α) (post : List α) (k : Nat)
    (he : p e = true) (hpre : ∀ x ∈ pre, p x = false) :
    find_if p (pre ++ e :: post) k = some (k + pre.length, e) := by
  induction pre generalizing k with
  | nil => simp [find_if, he]
  | cons x xs ih =>
    have hx : p x = false := hpre x (List.mem_cons_self _ _)
    have h := ih (k + 1) (fun y hy => hpre y (List.mem_cons_of_mem _ hy))
    simp only [List.cons_append, find_if, hx, Bool.false_eq_true, if_false, List.length_cons,
      List.append_eq, h]
    congr 2
    omega

theorem dispatch_no_match (cmp : List Byte → List Byte → Bool)
    (handlers : List (List Byte × handler_t)) (cur_req : Request) (w : World) (query : List Byte)
    (hq : cur_req.query = .ok query) (h : ∀ x ∈ handlers, cmp x.1 query = false) :
    (dispatch cmp handlers cur_req w).trace
      = w.trace ++ [.sendNotImplemented notImplementedBytes] := by
  unfold dispatch
  rw [hq]
  simp only
  rw [find_if_none _ _ _ h]
  simp only [sendNotImplemented, send_trace]

theorem dispatch_first (cmp : List Byte → List Byte → Bool)
    (pre : List (List Byte × handler_t)) (e : List Byte × handler_t)
    (post : List (List Byte × handler_t)) (cur_req : Request) (w : World) (query : List Byte)
    (hq : cur_req.query = .ok query) (he : cmp e.1 query = true)
    (hpre : ∀ x ∈ pre, cmp x.1 query = false) :
    ∃ cs : List (List Byte), (dispatch cmp (pre ++ e :: post) cur_req w).trace
      = w.trace ++ .invoke pre.length ::
          .sendResponse (e.2 (cur_req.fin w.fs).1 (cur_req.fin w.fs).2).1.create ::
          cs.map Event.sendChunk := by
  unfold dispatch
  rw [hq]
  simp only
  rw [find_if_first (fun pair => cmp pair.1 query) pre e post 0 he hpre]
  try simp only [Nat.zero_add]
  split
  · exact ⟨[], by simp [sendResponse, send_trace]⟩
  · obtain ⟨cs, hcs⟩ := streamLoop_trace BUFFER_SIZE
      (IfStream.openAt
        (sendResponse { w with fs := (e.2 (cur_req.fin w.fs).1 (cur_req.fin w.fs).2).2,
                               trace := w.trace ++ [.invoke pre.length] }
          (e.2 (cur_req.fin w.fs).1 (cur_req.fin w.fs).2).1).2.fs
        (e.2 (cur_req.fin w.fs).1 (cur_req.fin w.fs).2).1.readFrom)
      (sendResponse { w with fs := (e.2 (cur_req.fin w.fs).1 (cur_req.fin w.fs).2).2,
                             trace := w.trace ++ [.invoke pre.length] }
        (e.2 (cur_req.fin w.fs).1 (cur_req.fin w.fs).2).1).2
    refine ⟨cs, ?_⟩
    dsimp only
    rw [hcs]
    simp [sendResponse, send_trace]

theorem sendContinue_trace (w : World) :
    (sendContinue w).2.trace = w.trace ++ [.sendContinue continueBytes] := by
  simp only [sendContinue, send_trace]

theorem handshake_trace (cur_req : Request) (recvs : List RecvResult) (w : World) :
    ∃ evs, (handshake cur_req recvs w).2.trace = w.trace ++ evs ∧ invoked evs = [] ∧
      (cur_req.needContinue = false → evs = []) ∧
      (cur_req.needContinue = true → Event.payloadSize ∈ evs) := by
  unfold handshake
  cases hc : cur_req.needContinue
  · exact ⟨[], by simp, rfl, by simp, by simp⟩
  · simp only [if_true]
    cases hp : cur_req.payloadSize with
    | error e =>
      exact ⟨[.payloadSize, .threw e], by simp, by simp [invoked], by simp, by simp⟩
    | ok n =>
      simp only
      cases hs : (sendContinue { w with trace := w.trace ++ [.payloadSize] }).1
      · refine ⟨[.payloadSize, .sendContinue continueBytes], ?_, by simp [invoked], by simp,
          by simp⟩
        simp only [Bool.not_false, if_true, sendContinue_trace]
        simp
      · obtain ⟨chunks, hch⟩ := continueLoop_trace recvs (toI64 n) cur_req
          (sendContinue { w with trace := w.trace ++ [.payloadSize] }).2
        refine ⟨.payloadSize :: .sendContinue continueBytes :: chunks.map Event.append,
          ?_, ?_, by simp, by simp⟩
        · simp only [Bool.not_true, Bool.false_eq_true, if_false, hch, sendContinue_trace]
          simp
        · simp [invoked, invoked_map_append]

theorem receiveFrame_trace (recvs : List RecvResult) (w : World) :
    ∃ evs, (receiveFrame recvs w).2.trace = w.trace ++ evs ∧ invoked evs = [] := by
  unfold receiveFrame
  split
  · exact ⟨[], by simp, rfl⟩
  · obtain ⟨evs, h1, h2, _⟩ := handshake_trace { m_data := [] } [] w
    exact ⟨evs, h1, h2⟩
  · rename_i bytes rest
    obtain ⟨evs, h1, h2, _⟩ := handshake_trace { m_data := bytes } rest w
    exact ⟨evs, h1, h2⟩

theorem registry_eq (entries acc : List (List Byte × handler_t)) :
    entries.foldl (fun reg x => addHandler reg x.1 x.2) acc = acc ++ entries := by
  induction entries generalizing acc with
  | nil => simp
  | cons e es ih => rw [List.foldl_cons, ih]; simp [addHandler]

/-! ## Dispatch -/

/-- C1: when a connection reaches the handler lookup with request `cur_req`,
over the registry built by successive `addHandler` calls and any comparator:
if `e` is the first entry whose pattern matches the query (no entry before
it matches), exactly one handler is invoked, the one at the index of `e`,
and the response sent is the one `e`'s handler returned for the finalized
request; if no entry matches, no handler is invoked and the only thing done
is to send the `501` response. -/
theorem dispatch_first_registered_match (cmp : List Byte → List Byte → Bool)
    (entries : List (List Byte × handler_t)) (recvs : List RecvResult) (sends : List Bool)
    (fs : FS) (cur_req : Request) (w1 : World)
    (hreach : receiveFrame recvs (World.init sends fs) = (some cur_req, w1)) :
    ∃ query, cur_req.query = .ok query ∧
      (∀ pre e post, entries = pre ++ e :: post → cmp e.1 query = true →
        (∀ x ∈ pre, cmp x.1 query = false) →
        invoked (workWithClient cmp (entries.foldl (fun reg x => addHandler reg x.1 x.2) [])
          recvs (World.init sends fs)).trace = [pre.length] ∧
        ∃ cs : List (List Byte),
          (workWithClient cmp (entries.foldl (fun reg x => addHandler reg x.1 x.2) [])
            recvs (World.init sends fs)).trace
          = w1.trace ++ .invoke pre.length ::
              .sendResponse (e.2 (cur_req.fin w1.fs).1 (cur_req.fin w1.fs).2).1.create ::
              cs.map Event.sendChunk) ∧
      ((∀ x ∈ entries, cmp x.1 query = false) →
        invoked (workWithClient cmp (entries.foldl (fun reg x => addHandler reg x.1 x.2) [])
          recvs (World.init sends fs)).trace = [] ∧
        (workWithClient cmp (entries.foldl (fun reg x => addHandler reg x.1 x.2) [])
          recvs (World.init sends fs)).trace
          = w1.trace ++ [.sendNotImplemented notImplementedBytes]) := by
  obtain ⟨query, hq⟩ := query_ok cur_req
  have hreg : entries.foldl (fun reg x => addHandler reg x.1 x.2) [] = entries := by
    rw [registry_eq]; simp
  have hw1 : invoked w1.trace = [] := by
    obtain ⟨evs, h1, h2⟩ := receiveFrame_trace recvs (World.init sends fs)
    rw [hreach] at h1
    simp only [World.init, List.nil_append] at h1
    rw [h1, h2]
  have hrun : workWithClient cmp entries recvs (World.init sends fs)
      = dispatch cmp entries cur_req w1 := by
    unfold workWithClient
    rw [hreach]
  refine ⟨query, hq, ?_, ?_⟩
  · intro pre e post hsplit he hpre
    rw [hreg, hrun, hsplit]
    obtain ⟨cs, hcs⟩ := dispatch_first cmp pre e post cur_req w1 query hq he hpre
    refine ⟨?_, cs, hcs⟩
    rw [hcs, invoked_append, hw1]
    simp [invoked, invoked_map_sendChunk]
  · intro hnone
    rw [hreg, hrun, dispatch_no_match cmp entries cur_req w1 query hq hnone, invoked_append, hw1]
    exact ⟨rfl, rfl⟩

/-- The example of the specification: with `GET /a` and `GET /b` registered
in this order, a request for `/b` invokes the handler at index 1 only. -/
theorem dispatch_first_registered_match_witness :
    invoked (workWithClient equalCmp
      ([("GET /a".toList, fixedHandler "A"), ("GET /b".toList, fixedHandler "B")].foldl
        (fun reg x => addHandler reg x.1 x.2) [])
      [.data "GET /b HTTP/1.1\r\n\r\n".toList] (World.init [] emptyFS)).trace = [1] := by
  obtain ⟨query, hq, hfirst, _⟩ :=
    dispatch_first_registered_match equalCmp
      [("GET /a".toList, fixedHandler "A"), ("GET /b".toList, fixedHandler "B")]
      [.data "GET /b HTTP/1.1\r\n\r\n".toList] [] emptyFS
      { m_data := "GET /b HTTP/1.1\r\n\r\n".toList } (World.init [] emptyFS) rfl
  have hquery : query = "GET /b".toList := by
    have h : Request.query { m_data := "GET /b HTTP/1.1\r\n\r\n".toList } = .ok "GET /b".toList := by
      decide
    rw [h] at hq
    exact (Except.ok.inj hq).symm
  subst hquery
  exact (hfirst [("GET /a".toList, fixedHandler "A")] ("GET /b".toList, fixedHandler "B") [] rfl
    (by decide) (by
      intro x hx
      simp only [List.mem_singleton] at hx
      subst hx
      decide)).1

/-! ## The continue-handshake is entered exactly on `Expect: 100-continue` -/

theorem dispatch_trace (cmp : List Byte → List Byte → Bool)
    (handlers : List (List Byte × handler_t)) (cur_req : Request) (w : World) :
    ∃ evs, (dispatch cmp handlers cur_req w).trace = w.trace ++ evs ∧
      ∀ e ∈ evs, e.isHandshake = false := by
  obtain ⟨query, hq⟩ := query_ok cur_req
  unfold dispatch
  rw [hq]
  simp only
  cases hfind : find_if (fun pair => cmp pair.1 query) handlers 0 with
  | none =>
    refine ⟨[.sendNotImplemented notImplementedBytes], by simp [sendNotImplemented, send_trace], ?_⟩
    intro e he
    simp only [List.mem_singleton] at he
    subst he
    rfl
  | some found =>
    obtain ⟨i, pair⟩ := found
    simp only
    split
    · refine ⟨[.invoke i, .sendResponse (pair.2 (cur_req.fin w.fs).1 (cur_req.fin w.fs).2).1.create],
        by simp [sendResponse, send_trace], ?_⟩
      intro e he
      simp only [List.mem_cons, List.mem_singleton, List.not_mem_nil, or_false] at he
      rcases he with rfl | rfl <;> rfl
    · obtain ⟨cs, hcs⟩ := streamLoop_trace BUFFER_SIZE
        (IfStream.openAt
          (sendResponse { w with fs := (pair.2 (cur_req.fin w.fs).1 (cur_req.fin w.fs).2).2,
                                 trace := w.trace ++ [.invoke i] }
            (pair.2 (cur_req.fin w.fs).1 (cur_req.fin w.fs).2).1).2.fs
          (pair.2 (cur_req.fin w.fs).1 (cur_req.fin w.fs).2).1.readFrom)
        (sendResponse { w with fs := (pair.2 (cur_req.fin w.fs).1 (cur_req.fin w.fs).2).2,
                               trace := w.trace ++ [.invoke i] }
          (pair.2 (cur_req.fin w.fs).1 (cur_req.fin w.fs).2).1).2
      refine ⟨.invoke i ::
        .sendResponse (pair.2 (cur_req.fin w.fs).1 (cur_req.fin w.fs).2).1.create ::
        cs.map Event.sendChunk, ?_, ?_⟩
      · dsimp only
        rw [hcs]
        simp [sendResponse, send_trace]
      · intro e he
        simp only [List.mem_cons, List.mem_map] at he
        rcases he with rfl | rfl | ⟨c, _, rfl⟩ <;> rfl

theorem needContinue_iff (d : List Byte) (hd : d.length ≤ BUFFER_SIZE) :
    Request.needContinue { m_data := d } = true ↔ ∃ pre post, d = pre ++ EXPECT_CONTINUE ++ post := by
  unfold Request.needContinue find
  have hB : BUFFER_SIZE = 32768 := by decide
  rcases findStrFrom_spec EXPECT_CONTINUE d 0 with ⟨hn, hr⟩ | ⟨pre, post, hs, _, hr⟩
  · simp only [hr, bne_self_eq_false, Bool.false_eq_true, false_iff]
    exact hn
  · have hl : pre.length ≤ d.length := by
      rw [hs]; simp only [List.length_append]; omega
    have hne : 0 + pre.length ≠ npos := by
      unfold npos; omega
    simp only [hr, bne_iff_ne, ne_eq, hne, not_false_eq_true, true_iff]
    exact ⟨pre, post, hs⟩

theorem workWithClient_trace (cmp : List Byte → List Byte → Bool)
    (handlers : List (List Byte × handler_t)) (d : List Byte) (rest : List RecvResult)
    (sends : List Bool) (fs : FS) :
    ∃ hevs devs,
      (workWithClient cmp handlers (.data d :: rest) (World.init sends fs)).trace = hevs ++ devs ∧
      (Request.needContinue { m_data := d } = false → hevs = []) ∧
      (Request.needContinue { m_data := d } = true → Event.payloadSize ∈ hevs) ∧
      ∀ e ∈ devs, e.isHandshake = false := by
  obtain ⟨hevs, h1, _, h3, h4⟩ := handshake_trace { m_data := d } rest (World.init sends fs)
  simp only [World.init, List.nil_append] at h1
  unfold workWithClient receiveFrame
  simp only [World.init]
  cases hh : handshake { m_data := d } rest { sends := sends, fs := fs, trace := [] } with
  | mk o w1 =>
    rw [hh] at h1
    cases o with
    | none => exact ⟨hevs, [], by simpa using h1, h3, h4, by simp⟩
    | some cur_req =>
      obtain ⟨devs, hd1, hd2⟩ := dispatch_trace cmp handlers cur_req w1
      refine ⟨hevs, devs, ?_, h3, h4, hd2⟩
      simp only
      rw [hd1, h1]

/-- C5: for every initial byte sequence `d` received on a connection,
`needContinue()` is true exactly when `d` contains `Expect: 100-continue`,
`workWithClient` evaluates `payloadSize()` exactly in that case, and for a
`d` without the literal no event of the continue-handshake occurs:
`payloadSize()` is not evaluated, no `100 Continue` is sent and `append` is
never called. -/
theorem continue_handshake_iff_expect (cmp : List Byte → List Byte → Bool)
    (handlers : List (List Byte × handler_t)) (d : List Byte) (rest : List RecvResult)
    (sends : List Bool) (fs : FS) (hd : d.length ≤ BUFFER_SIZE) :
    (Request.needContinue { m_data := d } = true ↔
      ∃ pre post, d = pre ++ EXPECT_CONTINUE ++ post) ∧
    (Event.payloadSize ∈
        (workWithClient cmp handlers (.data d :: rest) (World.init sends fs)).trace ↔
      ∃ pre post, d = pre ++ EXPECT_CONTINUE ++ post) ∧
    ((¬ ∃ pre post, d = pre ++ EXPECT_CONTINUE ++ post) →
      ∀ e ∈ (workWithClient cmp handlers (.data d :: rest) (World.init sends fs)).trace,
        e.isHandshake = false) := by
  obtain ⟨hevs, devs, ht, hfalse, htrue, hdev⟩ := workWithClient_trace cmp handlers d rest sends fs
  have hiff := needContinue_iff d hd
  have hno : Request.needContinue { m_data := d } = false →
      ∀ e ∈ (workWithClient cmp handlers (.data d :: rest) (World.init sends fs)).trace,
        e.isHandshake = false := by
    intro hf e he
    rw [ht, hfalse hf, List.nil_append] at he
    exact hdev e he
  refine ⟨hiff, ?_, ?_⟩
  · rw [← hiff]
    constructor
    · intro hmem
      cases hc : Request.needContinue { m_data := d }
      · have := hno hc _ hmem
        simp [Event.isHandshake] at this
      · rfl
    · intro hc
      rw [ht]
      exact List.mem_append_left _ (htrue hc)
  · intro hnot
    apply hno
    cases hc : Request.needContinue { m_data := d }
    · rfl
    · exact absurd (hiff.1 hc) hnot

/-- A plain `GET` request lacks the literal: the connection logs the handler
call and its response, and nothing of the continue-handshake. -/
theorem continue_handshake_iff_expect_witness :
    (workWithClient equalCmp [("GET /b".toList, fixedHandler "B")]
      [.data "GET /b HTTP/1.1\r\n\r\n".toList] (World.init [] emptyFS)).trace
      = [.invoke 0, .sendResponse "B".toList] ∧
    ∀ e ∈ (workWithClient equalCmp [("GET /b".toList, fixedHandler "B")]
        [.data "GET /b HTTP/1.1\r\n\r\n".toList] (World.init [] emptyFS)).trace,
      e.isHandshake = false :=
  have h := continue_handshake_iff_expect equalCmp [("GET /b".toList, fixedHandler "B")]
    "GET /b HTTP/1.1\r\n\r\n".toList [] [] emptyFS (by decide)
  ⟨by decide, h.2.2 (fun hex => absurd (h.1.2 hex) (by decide))⟩

/-! ## Overflow to the file: `append`, `fin`, `copyTo` -/

theorem appendAll_open (r : Request) (pending : List Byte) (chunks : List (List Byte)) (fs : FS)
    (hfile : r.m_file = true) (hbuf : r.m_buffer = some pending) :
    appendAll r chunks fs = ({ r with m_buffer := some (pending ++ chunks.flatten) }, fs) := by
  induction chunks generalizing r pending with
  | nil =>
    simp only [appendAll, List.foldl_nil, List.flatten_nil, List.append_nil]
    rw [← hbuf]
  | cons c cs ih =>
    have hstep : r.append c fs = ({ r with m_buffer := some (pending ++ c) }, fs) := by
      simp [Request.append, hfile, hbuf]
    have := ih { r with m_buffer := some (pending ++ c) } (pending ++ c) hfile rfl
    simp only [appendAll, List.foldl_cons] at this ⊢
    rw [hstep, this]
    simp

/-- C9: over a filesystem mapping paths to bytes, for every non-empty list
of chunks appended to a freshly constructed request, whatever the overflow
file held before: after `fin()`, `copyTo(dst)` with `dst` other than the
overflow path returns `true`, `dst` holds the chunks concatenated in call
order, and no file remains at the overflow path. -/
theorem append_fin_copyTo_moves_chunks (fs : FS) (d : List Byte) (c : List Byte)
    (cs : List (List Byte)) (dst : String) (hdst : dst ≠ m_buffer_filename) :
    ∃ fs2,
      ((appendAll { m_data := d } (c :: cs) fs).1.fin
          (appendAll { m_data := d } (c :: cs) fs).2).1.copyTo dst
        ((appendAll { m_data := d } (c :: cs) fs).1.fin
          (appendAll { m_data := d } (c :: cs) fs).2).2 = .ok (true, fs2) ∧
      fs2 dst = some (c :: cs).flatten ∧ fs2 m_buffer_filename = none := by
  have hfirst : Request.append { m_data := d } c fs
      = ({ m_data := d, m_buffer := some c, m_file := true }, fs.write m_buffer_filename []) := by
    simp [Request.append]
  have hall : appendAll { m_data := d } (c :: cs) fs
      = ({ m_data := d, m_buffer := some (c ++ cs.flatten), m_file := true },
          fs.write m_buffer_filename []) := by
    have h := appendAll_open { m_data := d, m_buffer := some c, m_file := true } c cs
      (fs.write m_buffer_filename []) rfl rfl
    simp only [appendAll, List.foldl_cons] at h ⊢
    rw [hfirst, h]
  rw [hall]
  refine ⟨(FS.write (fs.write m_buffer_filename []) m_buffer_filename (c ++ cs.flatten)).mv
    m_buffer_filename dst, ?_, ?_, ?_⟩
  · simp [Request.fin, Request.closeBuffer, Request.copyTo, FS.write, FS.mkdir_p]
  · simp [FS.mv, FS.write, Ne.symm hdst]
  · simp [FS.mv, FS.write, Ne.symm hdst]

/-- The example of the specification: the chunks `"AB"`, `"CD"`, `"EF"`,
with a stale overflow file present, leave `"ABCDEF"` at the destination. -/
theorem append_fin_copyTo_moves_chunks_witness :
    ∃ fs2,
      ((appendAll { m_data := [] } ["AB".toList, "CD".toList, "EF".toList]
            (emptyFS.write m_buffer_filename "stale".toList)).1.fin
          (appendAll { m_data := [] } ["AB".toList, "CD".toList, "EF".toList]
            (emptyFS.write m_buffer_filename "stale".toList)).2).1.copyTo "upload/dst"
        ((appendAll { m_data := [] } ["AB".toList, "CD".toList, "EF".toList]
            (emptyFS.write m_buffer_filename "stale".toList)).1.fin
          (appendAll { m_data := [] } ["AB".toList, "CD".toList, "EF".toList]
            (emptyFS.write m_buffer_filename "stale".toList)).2).2 = .ok (true, fs2) ∧
      fs2 "upload/dst" = some "ABCDEF".toList ∧ fs2 m_buffer_filename = none :=
  append_fin_copyTo_moves_chunks (emptyFS.write m_buffer_filename "stale".toList) []
    "AB".toList ["CD".toList, "EF".toList] "upload/dst" (by decide)

/-! ## Streaming the response file -/

theorem send_ok (w : World) (ev : Event) (h : ∀ b ∈ w.sends, b = true) :
    (w.send ev).1 = true ∧ ∀ b ∈ (w.send ev).2.sends, b = true := by
  unfold World.send
  cases hs : w.sends with
  | nil => simp [hs]
  | cons ok rest =>
    rw [hs] at h
    simp only
    exact ⟨h ok (List.mem_cons_self _ _), fun b hb => h b (List.mem_cons_of_mem _ hb)⟩

theorem streamLoop_failed (size : Nat) (rest : List Byte) (w : World) :
    streamLoop size { rest := rest, good := false } w = w := by
  rw [streamLoop]
  simp [sendResponseFile, IfStream.read]

theorem padding_lt (size n : Nat) (h0 : 0 < n) (h : n < size) : padding size n = size - n := by
  unfold padding
  rw [Nat.mod_eq_of_lt h, Nat.mod_eq_of_lt (by omega)]

theorem padding_sub (size n : Nat) (h : size ≤ n) :
    padding size (n - size) = padding size n := by
  unfold padding
  have : n % size = (n - size) % size := by
    conv_lhs => rw [← Nat.sub_add_cancel h]
    rw [Nat.add_mod_right]
  rw [this]

/-- With every send succeeding, the streaming loop sends chunks of `size`
bytes each, and together they are the file followed by `padding` zero
bytes. -/
theorem streamLoop_sends_padded (size : Nat) (hsize : 0 < size) (F : List Byte) (w : World)
    (hsends : ∀ b ∈ w.sends, b = true) :
    ∃ cs : List (List Byte),
      (streamLoop size { rest := F, good := true } w).trace = w.trace ++ cs.map Event.sendChunk ∧
      cs.flatten = F ++ List.replicate (padding size F.length) NUL ∧
      ∀ c ∈ cs, c.length = size := by
  suffices H : ∀ (n : Nat) (F : List Byte) (w : World), F.length = n →
      (∀ b ∈ w.sends, b = true) →
      ∃ cs : List (List Byte),
        (streamLoop size { rest := F, good := true } w).trace
          = w.trace ++ cs.map Event.sendChunk ∧
        cs.flatten = F ++ List.replicate (padding size F.length) NUL ∧
        ∀ c ∈ cs, c.length = size from H F.length F w rfl hsends
  intro n
  induction n using Nat.strong_induction_on with
  | _ n ih =>
    intro F w hn hsends
    by_cases hF : F.length = 0
    · have hnil : F = [] := List.length_eq_zero.1 hF
      subst hnil
      refine ⟨[], ?_, ?_, by simp⟩
      · rw [streamLoop]
        simp [sendResponseFile, IfStream.read]
      · simp [padding]
    · have hgot : (List.take size F).length ≠ 0 := by
        simp only [List.length_take]; omega
      have hsent := send_ok w (.sendChunk ((List.take size F ++
        List.drop (List.take size F).length (List.replicate size NUL)).take size)) hsends
      have hstep : sendResponseFile size { rest := F, good := true } w
          = (true, { rest := F.drop size, good := decide ((F.take size).length = size) },
              (w.send (.sendChunk ((List.take size F ++
                List.drop (List.take size F).length (List.replicate size NUL)).take size))).2) := by
        simp only [sendResponseFile, IfStream.read, if_true, hgot, if_false, hsent.1]
      rw [streamLoop, dif_pos (by rw [hstep]), hstep]
      simp only
      by_cases hlt : F.length < size
      · have hgood : decide ((F.take size).length = size) = false := by
          simp only [List.length_take, decide_eq_false_iff_not]; omega
        have htake : F.take size = F := List.take_of_length_le (by omega)
        rw [hgood, streamLoop_failed, send_trace, htake]
        refine ⟨[F ++ List.replicate (size - F.length) NUL], ?_, ?_, ?_⟩
        · simp only [List.map_cons, List.map_nil, List.drop_replicate]
          congr 3
          apply List.take_of_length_le
          simp only [List.length_append, List.length_replicate]
          omega
        · rw [padding_lt size F.length (by omega) hlt]
          simp
        · intro c hc
          simp only [List.mem_singleton] at hc
          subst hc
          simp only [List.length_append, List.length_replicate]
          omega
      · have hge : size ≤ F.length := by omega
        have hlen : (F.take size).length = size := by
          simp only [List.length_take]; omega
        have hgood : decide ((F.take size).length = size) = true := by
          simp [hlen]
        rw [hgood]
        obtain ⟨cs, hcs, hflat, hall⟩ := ih (F.length - size) (by omega) (F.drop size)
          (w.send (.sendChunk ((List.take size F ++
            List.drop (List.take size F).length (List.replicate size NUL)).take size))).2
          (by simp) hsent.2
        have hchunk : (List.take size F ++
            List.drop (List.take size F).length (List.replicate size NUL)).take size
            = F.take size := by
          rw [hlen]
          simp [List.drop_replicate]
        refine ⟨F.take size :: cs, ?_, ?_, ?_⟩
        · rw [hcs, send_trace, hchunk]
          simp
        · rw [List.flatten_cons, hflat, List.length_drop, padding_sub size F.length hge,
            ← List.append_assoc, List.take_append_drop]
        · intro c hc
          simp only [List.mem_cons] at hc
          rcases hc with rfl | hc
          · exact hlen
          · exact hall c hc

theorem send_sends_ok (w : World) (ev : Event) (h : ∀ b ∈ w.sends, b = true) :
    (w.send ev).1 = true :=
  (send_ok w ev h).1

/-- The response of the first matching handler needs continuation, its file
holds `F`, and every send succeeds: after the handler call and the response,
the connection sends chunks of `BUFFER_SIZE` bytes that together are `F`
followed by `padding` zero bytes. -/
theorem dispatch_streams_padded (cmp : List Byte → List Byte → Bool)
    (pre : List (List Byte × handler_t)) (e : List Byte × handler_t)
    (post : List (List Byte × handler_t)) (cur_req : Request) (w : World) (query : List Byte)
    (hq : cur_req.query = .ok query) (he : cmp e.1 query = true)
    (hpre : ∀ x ∈ pre, cmp x.1 query = false) (hsends : ∀ b ∈ w.sends, b = true)
    (hcont : (e.2 (cur_req.fin w.fs).1 (cur_req.fin w.fs).2).1.needContinue = true)
    (F : List Byte)
    (hfile : (e.2 (cur_req.fin w.fs).1 (cur_req.fin w.fs).2).2
      (e.2 (cur_req.fin w.fs).1 (cur_req.fin w.fs).2).1.readFrom = some F) :
    ∃ cs : List (List Byte),
      (dispatch cmp (pre ++ e :: post) cur_req w).trace
        = w.trace ++ .invoke pre.length ::
            .sendResponse (e.2 (cur_req.fin w.fs).1 (cur_req.fin w.fs).2).1.create ::
            cs.map Event.sendChunk ∧
      cs.flatten = F ++ List.replicate (padding BUFFER_SIZE F.length) NUL ∧
      ∀ c ∈ cs, c.length = BUFFER_SIZE := by
  have hsent := send_ok
    { w with fs := (e.2 (cur_req.fin w.fs).1 (cur_req.fin w.fs).2).2,
             trace := w.trace ++ [.invoke pre.length] }
    (.sendResponse (e.2 (cur_req.fin w.fs).1 (cur_req.fin w.fs).2).1.create) hsends
  obtain ⟨cs, hcs, hflat, hall⟩ := streamLoop_sends_padded BUFFER_SIZE (by decide) F
    (World.send
      { w with fs := (e.2 (cur_req.fin w.fs).1 (cur_req.fin w.fs).2).2,
               trace := w.trace ++ [.invoke pre.length] }
      (.sendResponse (e.2 (cur_req.fin w.fs).1 (cur_req.fin w.fs).2).1.create)).2 hsent.2
  refine ⟨cs, ?_, hflat, hall⟩
  unfold dispatch
  rw [hq]
  simp only
  rw [find_if_first (fun pair => cmp pair.1 query) pre e post 0 he hpre]
  try simp only [Nat.zero_add]
  simp only [sendResponse, hsent.1, hcont, Bool.not_true, Bool.or_self, Bool.false_eq_true,
    if_false, send_fs, IfStream.openAt, hfile]
  rw [hcs, send_trace]
  simp

/-! ## Where the code departs from the specification -/

/-- C4, the code as it is: `sendContinue` passes 50 bytes to `send`, the 49
bytes of the literal and then a zero byte; `sendNotImplemented` passes 33
bytes, the 32 bytes of the literal and then a zero byte. -/
theorem control_responses_carry_terminator :
    CONTINUE_LITERAL.length = 49 ∧ continueBytes = CONTINUE_LITERAL ++ [NUL] ∧
    continueBytes ≠ CONTINUE_LITERAL ∧
    NOT_IMPLEMENTED_LITERAL.length = 32 ∧ notImplementedBytes = NOT_IMPLEMENTED_LITERAL ++ [NUL] ∧
    notImplementedBytes ≠ NOT_IMPLEMENTED_LITERAL ∧
    (∀ w : World, (sendContinue w).2.trace = w.trace ++ [.sendContinue (CONTINUE_LITERAL ++ [NUL])]) ∧
    (∀ w : World, (sendNotImplemented w).2.trace
      = w.trace ++ [.sendNotImplemented (NOT_IMPLEMENTED_LITERAL ++ [NUL])]) := by
  have h1 : continueBytes = CONTINUE_LITERAL ++ [NUL] := by decide
  have h2 : notImplementedBytes = NOT_IMPLEMENTED_LITERAL ++ [NUL] := by decide
  refine ⟨by decide, h1, by decide, by decide, h2, by decide, ?_, ?_⟩
  · intro w
    rw [← h1]
    exact sendContinue_trace w
  · intro w
    rw [← h2]
    simp only [sendNotImplemented, send_trace]

theorem find_eq_npos (d pat : List Byte) (hd : d.length < npos) (h : find d pat = npos) :
    ¬ ∃ pre post, d = pre ++ pat ++ post := by
  unfold find at h
  rcases findStrFrom_spec pat d 0 with ⟨hn, _⟩ | ⟨pre, post, hs, _, hr⟩
  · exact hn
  · have hl : pre.length ≤ d.length := by
      rw [hs]; simp only [List.length_append]; omega
    omega

/-- C6, the code as it is: the request
`"PUT /file HTTP/1.1\r\nExpect: 100-continue\r\n\r\n"` does not contain
`"Content-Length: "`, and `payloadSize()` returns the number 1: the search
yields `npos`, `npos + 16` wraps to 15, and the bytes from offset 15 on are
`"1.1\r\n..."`. -/
theorem payloadSize_without_header_returns :
    (¬ ∃ pre post, "PUT /file HTTP/1.1\r\nExpect: 100-continue\r\n\r\n".toList
        = pre ++ CONTENT_LENGTH ++ post) ∧
    Request.payloadSize { m_data := "PUT /file HTTP/1.1\r\nExpect: 100-continue\r\n\r\n".toList }
      = .ok 1 :=
  ⟨find_eq_npos _ _ (by decide) (by decide), by decide⟩

/-- C7, the code as it is: the first bytes ask for the continue-handshake
with a payload of 5 bytes, and the first receive of the loop fails. The loop
ends, and the connection goes on to look the handler up, to call it and to
send its response. -/
theorem recv_error_in_handshake_still_dispatches :
    (workWithClient equalCmp [("POST /x".toList, fixedHandler "OK")]
      [.data "POST /x HTTP/1.1\r\nContent-Length: 5\r\nExpect: 100-continue\r\n\r\n".toList,
       .error]
      (World.init [] emptyFS)).trace
    = [.payloadSize, .sendContinue continueBytes, .invoke 0, .sendResponse "OK".toList] := by
  decide

/-- C8, the code as it is: the response file holds the single byte `A` and
every send succeeds. The bytes sent while streaming are `A` followed by
32767 zero bytes, which is not the content of the file. -/
theorem stream_pads_short_file :
    ∃ cs : List (List Byte),
      (workWithClient equalCmp [("GET /f".toList, fileHandler "f")]
        [.data "GET /f HTTP/1.1\r\n\r\n".toList]
        (World.init [] (emptyFS.write "f" "A".toList))).trace
      = .invoke 0 :: .sendResponse "HTTP/1.1 200 OK\r\n\r\n".toList :: cs.map Event.sendChunk ∧
      cs.flatten = "A".toList ++ List.replicate 32767 NUL ∧
      cs.flatten ≠ "A".toList := by
  obtain ⟨cs, htrace, hflat, _⟩ := dispatch_streams_padded equalCmp []
    ("GET /f".toList, fileHandler "f") [] { m_data := "GET /f HTTP/1.1\r\n\r\n".toList }
    (World.init [] (emptyFS.write "f" "A".toList)) "GET /f".toList (by decide) (by decide)
    (by simp) (by simp [World.init]) rfl "A".toList rfl
  have hpad : padding BUFFER_SIZE "A".toList.length = 32767 := by decide
  rw [hpad] at hflat
  refine ⟨cs, ?_, hflat, ?_⟩
  · have hrun : workWithClient equalCmp [("GET /f".toList, fileHandler "f")]
        [.data "GET /f HTTP/1.1\r\n\r\n".toList]
        (World.init [] (emptyFS.write "f" "A".toList))
        = dispatch equalCmp ([] ++ ("GET /f".toList, fileHandler "f") :: [])
            { m_data := "GET /f HTTP/1.1\r\n\r\n".toList }
            (World.init [] (emptyFS.write "f" "A".toList)) := by
      have hrecv : receiveFrame [.data "GET /f HTTP/1.1\r\n\r\n".toList]
          (World.init [] (emptyFS.write "f" "A".toList))
          = (some { m_data := "GET /f HTTP/1.1\r\n\r\n".toList },
              World.init [] (emptyFS.write "f" "A".toList)) := rfl
      unfold workWithClient
      rw [hrecv]
      rfl
    rw [hrun, htrace]
    rfl
  · rw [hflat]
    intro h
    have hl := congrArg List.length h
    simp only [List.length_append, List.length_replicate] at hl
    revert hl
    decide

end HttpGet
